import Mathlib

/-
Verification of the isochrone selection module (`isochrone_selection.py`).

The module works on a star catalog (paired lists of colors and magnitudes)
and an isochrone curve (paired lists of colors and magnitudes).  Its three
operations are

  * `perpendicular_distance points icolor imag` — sorts the curve samples by
    color, builds a k-d tree over them, and returns for every catalog point
    the Euclidean distance to the nearest curve sample;
  * `select_stars` — thresholds those distances into a boolean mask;
  * `select_stars_color_range` — linearly interpolates the curve magnitude
    as a function of color (scipy `interp1d`, NaN fill outside the domain)
    and selects points inside a color/magnitude band.

Modelling conventions, matching the numerical libraries the code calls:

  * Machine floats are modelled by real numbers.
  * scipy's `cKDTree` accepts an empty point set and `query` then reports an
    infinite distance; the infinite distance is modelled by `none`, a finite
    distance `d` by `some d`.  A NaN produced by interpolating outside the
    curve's color domain is likewise modelled by `none`.
  * `np.argsort` followed by fancy-indexing both curve arrays is modelled as
    a stable sort of the zipped list of samples (numpy's sort is an insertion
    sort on small arrays, hence stable there, and `interp1d` re-sorts its
    input with a stable mergesort).
  * Python exceptions (`ValueError` from `np.column_stack` on mismatched
    lengths, from `interp1d` on fewer than two samples, and from broadcasting
    incompatible shapes) are modelled with `Except String`.
-/

namespace IsochroneSelection

open List

/-- A point of the color–magnitude diagram: `(color, magnitude)`. -/
abbrev Pt : Type := ℝ × ℝ

/-- Ordering of curve samples by their color (first) coordinate; the key used
by `np.argsort(isochrone_color)`. -/
def colorLE (a b : Pt) : Prop := a.1 ≤ b.1

noncomputable instance : DecidableRel colorLE :=
fun a b => inferInstanceAs (Decidable (a.1 ≤ b.1))

instance : IsTotal Pt colorLE := ⟨fun a b => le_total a.1 b.1⟩

instance : IsTrans Pt colorLE := ⟨fun _ _ _ h h2 => le_trans h h2⟩

/-- `sort_idx = np.argsort(isochrone_color)` followed by
`isochrone_color[sort_idx]`, `isochrone_mag[sort_idx]` (lines 36–38 and
152–154 of the source): the curve samples, paired up and stably sorted by
color. -/
noncomputable def sortCurve (icolor imag : List ℝ) : List Pt :=
List.insertionSort colorLE (icolor.zip imag)

/-- Euclidean distance between two points of the diagram, the metric used by
`cKDTree.query`. -/
noncomputable def eDist (p q : Pt) : ℝ :=
Real.sqrt ((p.1 - q.1) ^ 2 + (p.2 - q.2) ^ 2)

/-- `tree.query(p)` for a tree built over `curve`: the distance to the nearest
curve sample, `none` modelling the infinite distance scipy reports when the
tree holds no points. -/
noncomputable def nearestDist? (p : Pt) : List Pt → Option ℝ
  | [] => none
  | q :: qs => some (qs.foldl (fun acc r => min acc (eDist p r)) (eDist p q))

/-- `perpendicular_distance(points, isochrone_color, isochrone_mag)` (source
lines 13–47): sort the curve by color, build the k-d tree, query every catalog
point for its nearest-sample distance. -/
noncomputable def perpendicular_distance (points : List Pt) (icolor imag : List ℝ) :
    List (Option ℝ) :=
points.map fun p => nearestDist? p (sortCurve icolor imag)

/-- `euclidean_distance` (source lines 50–68) just forwards to
`perpendicular_distance`. -/
noncomputable def euclidean_distance (points : List Pt) (icolor imag : List ℝ) :
    List (Option ℝ) :=
perpendicular_distance points icolor imag

/-- `distances <= threshold` on one entry; an infinite distance compares
`False`. -/
noncomputable def distLE (threshold : ℝ) : Option ℝ → Bool
  | none => false
  | some d => decide (d ≤ threshold)

/-- `select_stars` (source lines 71–115).  `np.column_stack` raises on
mismatched catalog lengths before anything else; then the metric dispatch
computes the distances and the inclusive threshold mask. -/
noncomputable def select_stars (scolor smag icolor imag : List ℝ) (threshold : ℝ)
    (metric : String) : Except String (List Bool × List (Option ℝ)) :=
if scolor.length ≠ smag.length then
  .error "ValueError: all the input array dimensions must match exactly"
else if metric = "perpendicular" then
  .ok ((perpendicular_distance (scolor.zip smag) icolor imag).map (distLE threshold),
       perpendicular_distance (scolor.zip smag) icolor imag)
else if metric = "euclidean" then
  .ok ((euclidean_distance (scolor.zip smag) icolor imag).map (distLE threshold),
       euclidean_distance (scolor.zip smag) icolor imag)
else
  .error ("Unknown metric: " ++ metric ++ ". Use 'perpendicular' or 'euclidean'.")

/-- `np.min` of an array (the source applies it to the nonempty sorted color
array; numpy raises on an empty array, a case the source never reaches
because `interp1d` has already insisted on at least two entries). -/
noncomputable def npMin : List ℝ → ℝ
  | [] => 0
  | x :: xs => xs.foldl min x

/-- `np.max` of an array; see `npMin`. -/
noncomputable def npMax : List ℝ → ℝ
  | [] => 0
  | x :: xs => xs.foldl max x

/-- Evaluation of `scipy.interpolate.interp1d(x, y, kind='linear',
bounds_error=False, fill_value=np.nan)` at one query color, for the sorted
curve.  For 1-D float data scipy delegates to `np.interp` and then overwrites
queries outside `[x[0], x[-1]]` with NaN (modelled `none`).  Inside the
domain `np.interp` takes `j` = the largest index with `x[j] ≤ v` and returns
`y[j]` when `j` is the last index or an exact knot hit, otherwise the linear
interpolation on `[x[j], x[j+1]]`. -/
noncomputable def npInterp (curve : List Pt) (v : ℝ) : Option ℝ :=
if v < (curve.map Prod.fst).getD 0 0 ∨ (curve.map Prod.fst).getD (curve.length - 1) 0 < v then
  none
else
  some
    (let xs := curve.map Prod.fst
     let ys := curve.map Prod.snd
     let j := xs.countP (fun x => decide (x ≤ v)) - 1
     if j = curve.length - 1 ∨ xs.getD j 0 = v then ys.getD j 0
     else
       ys.getD j 0 + (ys.getD (j + 1) 0 - ys.getD j 0) / (xs.getD (j + 1) 0 - xs.getD j 0) *
         (v - xs.getD j 0))

/-- One entry of `np.abs(star_mag - expected_mag) <= mag_threshold`: any
comparison against the NaN of an out-of-domain expected magnitude is
`False`. -/
noncomputable def magMaskEntry (magThreshold : ℝ) (m : ℝ) : Option ℝ → Bool
  | none => false
  | some e => decide (|m - e| ≤ magThreshold)

/-- One entry of the color-window mask
`(star_color >= cmin - color_threshold) & (star_color <= cmax + color_threshold)`. -/
noncomputable def colorMaskEntry (cmin cmax colorThreshold : ℝ) (c : ℝ) : Bool :=
decide (cmin - colorThreshold ≤ c) && decide (c ≤ cmax + colorThreshold)

/-- Elementwise combination of two 1-D numpy arrays: equal lengths pair up,
a length-one array broadcasts against the other, anything else raises. -/
def zipBcast {α β γ : Type} (f : α → β → γ) (a : List α) (b : List β) : Option (List γ) :=
if a.length = b.length then some (List.zipWith f a b)
else
  match a, b with
  | [x], bs => some (bs.map (f x))
  | as, [y] => some (as.map fun x => f x y)
  | _, _ => none

/-- `select_stars_color_range` (source lines 118–174): sort the curve by
color, build the linear interpolant (`interp1d` raises unless it gets at
least two samples), take the expected magnitude at every star color, and
combine the color-window mask, the magnitude-band mask and the
not-NaN mask, each combination following numpy broadcasting. -/
noncomputable def select_stars_color_range (scolor smag icolor imag : List ℝ)
    (colorThreshold magThreshold : ℝ) : Except String (List Bool) :=
if (icolor.zip imag).length < 2 then
  .error "ValueError: x and y arrays must have at least 2 entries"
else
  match zipBcast (magMaskEntry magThreshold) smag
      (scolor.map (npInterp (sortCurve icolor imag))) with
  | none => .error "ValueError: operands could not be broadcast together (mag)"
  | some magMask =>
    match zipBcast (· && ·)
        (scolor.map
          (colorMaskEntry (npMin ((sortCurve icolor imag).map Prod.fst))
            (npMax ((sortCurve icolor imag).map Prod.fst)) colorThreshold))
        magMask with
    | none => .error "ValueError: operands could not be broadcast together (color)"
    | some cm =>
      match zipBcast (· && ·) cm
          ((scolor.map (npInterp (sortCurve icolor imag))).map fun e => !e.isNone) with
      | none => .error "ValueError: operands could not be broadcast together (nan)"
      | some mask => .ok mask

/-! ### Fold/minimum helper lemmas -/

/-- The running minimum never exceeds its initial value. -/
theorem foldl_min_le_init (f : Pt → ℝ) :
    ∀ (l : List Pt) (a : ℝ), l.foldl (fun acc r => min acc (f r)) a ≤ a := by
  intro l
  induction l with
  | nil => intro a; simp
  | cons x xs ih =>
    intro a
    calc (x :: xs).foldl (fun acc r => min acc (f r)) a
        = xs.foldl (fun acc r => min acc (f r)) (min a (f x)) := rfl
      _ ≤ min a (f x) := ih _
      _ ≤ a := min_le_left _ _

/-- The running minimum is a lower bound of all visited values. -/
theorem foldl_min_le_mem (f : Pt → ℝ) :
    ∀ (l : List Pt) (a : ℝ), ∀ x ∈ l, l.foldl (fun acc r => min acc (f r)) a ≤ f x := by
  intro l
  induction l with
  | nil => intro a x hx; simp at hx
  | cons y ys ih =>
    intro a x hx
    rcases List.mem_cons.mp hx with h | h
    · subst h
      calc (x :: ys).foldl (fun acc r => min acc (f r)) a
          = ys.foldl (fun acc r => min acc (f r)) (min a (f x)) := rfl
        _ ≤ min a (f x) := foldl_min_le_init f ys _
        _ ≤ f x := min_le_right _ _
    · exact ih (min a (f y)) x h

/-- The running minimum is attained: it is the initial value or one of the
visited values. -/
theorem foldl_min_attained (f : Pt → ℝ) :
    ∀ (l : List Pt) (a : ℝ),
      l.foldl (fun acc r => min acc (f r)) a = a ∨
        ∃ x ∈ l, l.foldl (fun acc r => min acc (f r)) a = f x := by
  intro l
  induction l with
  | nil => intro a; left; rfl
  | cons y ys ih =>
    intro a
    have hstep : (y :: ys).foldl (fun acc r => min acc (f r)) a
        = ys.foldl (fun acc r => min acc (f r)) (min a (f y)) := rfl
    rcases ih (min a (f y)) with h | ⟨x, hx, h⟩
    · rcases min_cases a (f y) with ⟨hm, _⟩ | ⟨hm, _⟩
      · left; rw [hstep, h, hm]
      · right; exact ⟨y, List.mem_cons_self _ _, by rw [hstep, h, hm]⟩
    · right; exact ⟨x, List.mem_cons_of_mem _ hx, by rw [hstep, h]⟩

/-! ### Characterization of the nearest-sample distance -/

/-- The query distance is infinite exactly over the empty tree. -/
theorem nearestDist?_eq_none_iff (p : Pt) (l : List Pt) :
    nearestDist? p l = none ↔ l = [] := by
  cases l with
  | nil => simp [nearestDist?]
  | cons q qs => simp [nearestDist?]

/-- Over a nonempty tree the query returns the minimum of the Euclidean
distances to the indexed points: a lower bound that is attained. -/
theorem nearestDist?_spec (p : Pt) (l : List Pt) (h : l ≠ []) :
    ∃ d, nearestDist? p l = some d ∧ (∀ q ∈ l, d ≤ eDist p q) ∧ ∃ q ∈ l, d = eDist p q := by
  cases l with
  | nil => exact absurd rfl h
  | cons q qs =>
    refine ⟨qs.foldl (fun acc r => min acc (eDist p r)) (eDist p q), rfl, ?_, ?_⟩
    · intro r hr
      rcases List.mem_cons.mp hr with hr | hr
      · subst hr; exact foldl_min_le_init _ qs _
      · exact foldl_min_le_mem _ qs _ r hr
    · rcases foldl_min_attained (eDist p) qs (eDist p q) with h0 | ⟨x, hx, h0⟩
      · exact ⟨q, List.mem_cons_self _ _, h0⟩
      · exact ⟨x, List.mem_cons_of_mem _ hx, h0⟩

/-- The nearest-sample distance only depends on the multiset of samples. -/
theorem nearestDist?_perm (p : Pt) {l₁ l₂ : List Pt} (h : l₁.Perm l₂) :
    nearestDist? p l₁ = nearestDist? p l₂ := by
  cases hl : l₁ with
  | nil =>
    subst hl
    have : l₂ = [] := h.nil_eq.symm
    rw [this]
  | cons q qs =>
    have h₁ : l₁ ≠ [] := by rw [hl]; exact List.cons_ne_nil _ _
    have h₂ : l₂ ≠ [] := by
      intro h2
      exact h₁ ((h2 ▸ h).eq_nil)
    rw [← hl]
    obtain ⟨d₁, hd₁, hb₁, x₁, hx₁, he₁⟩ := nearestDist?_spec p l₁ h₁
    obtain ⟨d₂, hd₂, hb₂, x₂, hx₂, he₂⟩ := nearestDist?_spec p l₂ h₂
    have hle₁ : d₁ ≤ d₂ := he₂ ▸ hb₁ x₂ (h.mem_iff.mpr hx₂)
    have hle₂ : d₂ ≤ d₁ := he₁ ▸ hb₂ x₁ (h.mem_iff.mp hx₁)
    rw [hd₁, hd₂, le_antisymm hle₁ hle₂]

/-! ### List indexing helpers -/

theorem getD_map_of_lt {α β : Type} (f : α → β) {l : List α} {i : ℕ}
    (hi : i < l.length) (da : α) (db : β) :
    (l.map f).getD i db = f (l.getD i da) := by
  induction l generalizing i with
  | nil => exact absurd hi (by simp)
  | cons x xs ih =>
    cases i with
    | zero => rfl
    | succ n =>
      have hn : n < xs.length := by simpa using hi
      simpa using ih hn

theorem getD_zipWith_of_lt {α β γ : Type} (f : α → β → γ) {a : List α} {b : List β} {i : ℕ}
    (ha : i < a.length) (hb : i < b.length) (da : α) (db : β) (dc : γ) :
    (List.zipWith f a b).getD i dc = f (a.getD i da) (b.getD i db) := by
  induction a generalizing b i with
  | nil => exact absurd ha (by simp)
  | cons x xs ih =>
    cases b with
    | nil => exact absurd hb (by simp)
    | cons y ys =>
      cases i with
      | zero => rfl
      | succ n =>
        have hn : n < xs.length := by simpa using ha
        have hn2 : n < ys.length := by simpa using hb
        simpa using ih hn hn2

theorem list_ext_getD {α : Type} (d : α) :
    ∀ (a b : List α), a.length = b.length →
      (∀ i, i < a.length → a.getD i d = b.getD i d) → a = b := by
  intro a
  induction a with
  | nil =>
    intro b hlen _
    cases b with
    | nil => rfl
    | cons y ys => exact absurd hlen (by simp)
  | cons x xs ih =>
    intro b hlen hpt
    cases b with
    | nil => exact absurd hlen (by simp)
    | cons y ys =>
      have h0 : x = y := hpt 0 (by simp)
      have htail : xs = ys := by
        refine ih ys (by simpa using hlen) ?_
        intro i hi
        simpa using hpt (i + 1) (by simpa using hi)
      rw [h0, htail]

theorem zipBcast_of_length_eq {α β γ : Type} (f : α → β → γ) {a : List α} {b : List β}
    (h : a.length = b.length) : zipBcast f a b = some (List.zipWith f a b) := by
  unfold zipBcast
  rw [if_pos h]

theorem zipBcast_none {α β γ : Type} (f : α → β → γ) {a : List α} {b : List β}
    (hne : a.length ≠ b.length) (ha : a.length ≠ 1) (hb : b.length ≠ 1) :
    zipBcast f a b = none := by
  unfold zipBcast
  rw [if_neg hne]
  match a, b with
  | [], [] => exact absurd rfl hne
  | [], _ :: _ :: _ => rfl
  | [_], _ => exact absurd rfl ha
  | _ :: _ :: _, [] => rfl
  | _ :: _ :: _, [_] => exact absurd rfl hb
  | _ :: _ :: _, _ :: _ :: _ => rfl
  | [], [_] => exact absurd rfl hb

/-! ### Minimum and maximum of a sorted array -/

theorem foldl_min_of_forall_le :
    ∀ (l : List ℝ) (a : ℝ), (∀ x ∈ l, a ≤ x) → l.foldl min a = a := by
  intro l
  induction l with
  | nil => intro a _; rfl
  | cons x xs ih =>
    intro a h
    have hax : a ≤ x := h x (List.mem_cons_self _ _)
    have : (x :: xs).foldl min a = xs.foldl min (min a x) := rfl
    rw [this, min_eq_left hax]
    exact ih a fun y hy => h y (List.mem_cons_of_mem _ hy)

/-- On a sorted array `np.min` is the first entry. -/
theorem npMin_of_sorted {xs : List ℝ} (h : xs.Sorted (· ≤ ·)) : npMin xs = xs.getD 0 0 := by
  cases xs with
  | nil => rfl
  | cons x t =>
    have hx : ∀ y ∈ t, x ≤ y := fun y hy => (List.sorted_cons.mp h).1 y hy
    simpa [npMin] using foldl_min_of_forall_le t x hx

/-- On a sorted array `np.max` is the last entry. -/
theorem npMax_of_sorted :
    ∀ {xs : List ℝ}, xs.Sorted (· ≤ ·) → npMax xs = xs.getD (xs.length - 1) 0 := by
  intro xs
  induction xs with
  | nil => intro _; rfl
  | cons x t ih =>
    intro h
    cases t with
    | nil => rfl
    | cons y u =>
      have hxy : x ≤ y := (List.sorted_cons.mp h).1 y (List.mem_cons_self _ _)
      have htail : (y :: u).Sorted (· ≤ ·) := (List.sorted_cons.mp h).2
      have hstep : npMax (x :: y :: u) = npMax (y :: u) := by
        show (y :: u).foldl max x = npMax (y :: u)
        show u.foldl max (max x y) = npMax (y :: u)
        rw [max_eq_right hxy]
        rfl
      rw [hstep, ih htail]
      rfl

/-! ### The interpolant's domain -/

/-- The interpolated magnitude is defined exactly on the closed color domain
bounded by the sorted curve's first and last color. -/
theorem npInterp_isSome_iff (curve : List Pt) (v : ℝ) :
    (npInterp curve v).isSome = true ↔
      ((curve.map Prod.fst).getD 0 0 ≤ v ∧ v ≤ (curve.map Prod.fst).getD (curve.length - 1) 0) := by
  unfold npInterp
  split_ifs with h
  · simp only [Option.isSome_none, Bool.false_eq_true, false_iff]
    intro hc
    rcases h with h | h
    · exact absurd hc.1 (not_le.mpr h)
    · exact absurd hc.2 (not_le.mpr h)
  · push_neg at h
    exact ⟨fun _ => ⟨h.1, h.2⟩, fun _ => rfl⟩

/-! ### The sorted curve -/

theorem sortCurve_perm (icolor imag : List ℝ) :
    (sortCurve icolor imag).Perm (icolor.zip imag) :=
List.perm_insertionSort colorLE (icolor.zip imag)

theorem sortCurve_length (icolor imag : List ℝ) :
    (sortCurve icolor imag).length = (icolor.zip imag).length :=
(sortCurve_perm icolor imag).length_eq

theorem sortCurve_sorted (icolor imag : List ℝ) :
    ((sortCurve icolor imag).map Prod.fst).Sorted (· ≤ ·) := by
  have h : (sortCurve icolor imag).Sorted colorLE :=
    List.sorted_insertionSort colorLE (icolor.zip imag)
  exact (List.pairwise_map).mpr h

/-! ### Normal form of the band selection on a well-formed catalog -/

/-- With equal catalog lengths and a curve of at least two samples the band
selection succeeds, its mask is catalog-sized, and entry `j` is the
conjunction of the color-window bit, the magnitude-band bit and the
interpolant-defined bit at catalog point `j`. -/
theorem band_ok (sc sm ic im : List ℝ) (ct mt : ℝ)
    (hlen : sc.length = sm.length) (h2 : 2 ≤ (ic.zip im).length) :
    ∃ mask, select_stars_color_range sc sm ic im ct mt = .ok mask ∧
      mask.length = sc.length ∧
      ∀ j, j < sc.length →
        mask.getD j false =
          ((colorMaskEntry (npMin ((sortCurve ic im).map Prod.fst))
                (npMax ((sortCurve ic im).map Prod.fst)) ct (sc.getD j 0) &&
              magMaskEntry mt (sm.getD j 0) (npInterp (sortCurve ic im) (sc.getD j 0))) &&
            !(npInterp (sortCurve ic im) (sc.getD j 0)).isNone) := by
  have e1 : zipBcast (magMaskEntry mt) sm (sc.map (npInterp (sortCurve ic im)))
      = some (List.zipWith (magMaskEntry mt) sm (sc.map (npInterp (sortCurve ic im)))) :=
    zipBcast_of_length_eq _ (by simp [← hlen])
  have e2 : zipBcast (· && ·)
      (sc.map
        (colorMaskEntry (npMin ((sortCurve ic im).map Prod.fst))
          (npMax ((sortCurve ic im).map Prod.fst)) ct))
      (List.zipWith (magMaskEntry mt) sm (sc.map (npInterp (sortCurve ic im))))
      = some (List.zipWith (· && ·)
          (sc.map
            (colorMaskEntry (npMin ((sortCurve ic im).map Prod.fst))
              (npMax ((sortCurve ic im).map Prod.fst)) ct))
          (List.zipWith (magMaskEntry mt) sm (sc.map (npInterp (sortCurve ic im))))) :=
    zipBcast_of_length_eq _ (by simp [← hlen])
  have e3 : zipBcast (· && ·)
      (List.zipWith (· && ·)
        (sc.map
          (colorMaskEntry (npMin ((sortCurve ic im).map Prod.fst))
            (npMax ((sortCurve ic im).map Prod.fst)) ct))
        (List.zipWith (magMaskEntry mt) sm (sc.map (npInterp (sortCurve ic im)))))
      ((sc.map (npInterp (sortCurve ic im))).map fun e => !e.isNone)
      = some (List.zipWith (· && ·)
          (List.zipWith (· && ·)
            (sc.map
              (colorMaskEntry (npMin ((sortCurve ic im).map Prod.fst))
                (npMax ((sortCurve ic im).map Prod.fst)) ct))
            (List.zipWith (magMaskEntry mt) sm (sc.map (npInterp (sortCurve ic im)))))
          ((sc.map (npInterp (sortCurve ic im))).map fun e => !e.isNone)) :=
    zipBcast_of_length_eq _ (by simp [← hlen])
  refine ⟨List.zipWith (· && ·)
      (List.zipWith (· && ·)
        (sc.map
          (colorMaskEntry (npMin ((sortCurve ic im).map Prod.fst))
            (npMax ((sortCurve ic im).map Prod.fst)) ct))
        (List.zipWith (magMaskEntry mt) sm (sc.map (npInterp (sortCurve ic im)))))
      ((sc.map (npInterp (sortCurve ic im))).map fun e => !e.isNone), ?_, ?_, ?_⟩
  · simp only [select_stars_color_range, if_neg (Nat.not_lt.mpr h2), e1, e2, e3]
  · simp [← hlen]
  · intro j hj
    have hjm : j < sm.length := hlen ▸ hj
    have hcm : j < (List.zipWith (· && ·)
        (sc.map
          (colorMaskEntry (npMin ((sortCurve ic im).map Prod.fst))
            (npMax ((sortCurve ic im).map Prod.fst)) ct))
        (List.zipWith (magMaskEntry mt) sm (sc.map (npInterp (sortCurve ic im))))).length := by
      simpa [← hlen] using hj
    have hnn : j < ((sc.map (npInterp (sortCurve ic im))).map fun e => !e.isNone).length := by
      simpa using hj
    have hcl : j < (sc.map
        (colorMaskEntry (npMin ((sortCurve ic im).map Prod.fst))
          (npMax ((sortCurve ic im).map Prod.fst)) ct)).length := by
      simpa using hj
    have hmm : j < (List.zipWith (magMaskEntry mt) sm
        (sc.map (npInterp (sortCurve ic im)))).length := by
      simpa [← hlen] using hj
    have hje : j < (sc.map (npInterp (sortCurve ic im))).length := by simpa using hj
    rw [getD_zipWith_of_lt (· && ·) hcm hnn false false false,
      getD_zipWith_of_lt (· && ·) hcl hmm false false false,
      getD_zipWith_of_lt (magMaskEntry mt) hjm hje 0 none false,
      getD_map_of_lt _ hj 0 none, getD_map_of_lt _ hj 0 false,
      getD_map_of_lt _ hje none false, getD_map_of_lt _ hj 0 none]

theorem getD_zip_of_lt {α β : Type} {a : List α} {b : List β} {i : ℕ}
    (ha : i < a.length) (hb : i < b.length) (da : α) (db : β) :
    (a.zip b).getD i (da, db) = (a.getD i da, b.getD i db) := by
  induction a generalizing b i with
  | nil => exact absurd ha (by simp)
  | cons x xs ih =>
    cases b with
    | nil => exact absurd hb (by simp)
    | cons y ys =>
      cases i with
      | zero => rfl
      | succ n =>
        have hn : n < xs.length := by simpa using ha
        have hn2 : n < ys.length := by simpa using hb
        simpa using ih hn hn2

theorem zip_ne_nil_of_ne_nil {icolor imag : List ℝ} (hlen : icolor.length = imag.length)
    (hm : icolor ≠ []) : icolor.zip imag ≠ [] := by
  intro h
  apply hm
  have h0 : icolor.length = 0 := by
    have := congrArg List.length h
    simpa [hlen] using this
  exact List.length_eq_zero.mp h0

theorem sortCurve_ne_nil {icolor imag : List ℝ} (hlen : icolor.length = imag.length)
    (hm : icolor ≠ []) : sortCurve icolor imag ≠ [] := by
  intro h
  exact zip_ne_nil_of_ne_nil hlen hm ((h ▸ sortCurve_perm icolor imag).nil_eq).symm

/-! ### Claims about the distance operation -/

/-- C1: for every catalog and every curve of `m ≥ 1` samples,
`perpendicular_distance` returns at index `j` the minimum over all curve
samples of the Euclidean distance `√((color_j − curve_color_i)² +
(mag_j − curve_mag_i)²)` — the distance to the nearest curve *sample*, not
to any interpolated segment. -/
theorem perpendicular_distance_min_over_samples (points : List Pt) (icolor imag : List ℝ)
    (hlen : icolor.length = imag.length) (hm : icolor ≠ []) (j : ℕ) (hj : j < points.length) :
    ∃ d, (perpendicular_distance points icolor imag).getD j none = some d ∧
      (∀ q ∈ icolor.zip imag, d ≤ eDist (points.getD j (0, 0)) q) ∧
      ∃ q ∈ icolor.zip imag, d = eDist (points.getD j (0, 0)) q := by
  obtain ⟨d, hd, hb, q, hq, he⟩ :=
    nearestDist?_spec (points.getD j (0, 0)) (sortCurve icolor imag) (sortCurve_ne_nil hlen hm)
  refine ⟨d, ?_, ?_, ⟨q, (sortCurve_perm icolor imag).mem_iff.mp hq, he⟩⟩
  · unfold perpendicular_distance
    rw [getD_map_of_lt _ hj (0, 0) none]
    exact hd
  · intro r hr
    exact hb r ((sortCurve_perm icolor imag).mem_iff.mpr hr)

theorem perpendicular_distance_min_over_samples_witness :
    ∃ d, (perpendicular_distance [((0 : ℝ), (0 : ℝ))] [1] [2]).getD 0 none = some d ∧
      (∀ q ∈ List.zip ([1] : List ℝ) ([2] : List ℝ),
        d ≤ eDist (([((0 : ℝ), (0 : ℝ))]).getD 0 (0, 0)) q) ∧
      ∃ q ∈ List.zip ([1] : List ℝ) ([2] : List ℝ),
        d = eDist (([((0 : ℝ), (0 : ℝ))]).getD 0 (0, 0)) q :=
  perpendicular_distance_min_over_samples [((0 : ℝ), (0 : ℝ))] [1] [2] (by simp) (by simp) 0
    (by simp)

/-- C8: permuting the catalog (given as a list of indices into the original
catalog) permutes the distance output identically — the output ordering
always follows the catalog ordering, with no cross-talk between points. -/
theorem perpendicular_distance_perm_catalog (points : List Pt) (icolor imag : List ℝ)
    (σ : List ℕ) (hσ : ∀ i ∈ σ, i < points.length) :
    perpendicular_distance (σ.map fun i => points.getD i (0, 0)) icolor imag
      = σ.map fun i => (perpendicular_distance points icolor imag).getD i none := by
  unfold perpendicular_distance
  rw [List.map_map]
  refine List.map_congr_left ?_
  intro i hi
  simp only [Function.comp_apply]
  exact (getD_map_of_lt (fun p => nearestDist? p (sortCurve icolor imag)) (hσ i hi)
    (0, 0) none).symm

theorem perpendicular_distance_perm_catalog_witness :
    perpendicular_distance
        (([1, 0] : List ℕ).map fun i => ([((0 : ℝ), (0 : ℝ)), ((3 : ℝ), (4 : ℝ))]).getD i (0, 0))
        [1] [2]
      = ([1, 0] : List ℕ).map fun i =>
          (perpendicular_distance [((0 : ℝ), (0 : ℝ)), ((3 : ℝ), (4 : ℝ))] [1] [2]).getD i none :=
  perpendicular_distance_perm_catalog [((0 : ℝ), (0 : ℝ)), ((3 : ℝ), (4 : ℝ))] [1] [2] [1, 0]
    (by decide)

/-- C9: for every catalog (empty included) and every curve of `m ≥ 1` samples
(`m = 1` included), `select_stars` succeeds with `len(mask) = len(distances)
= n`, every distance is a non-negative real, an empty catalog produces empty
outputs, and a one-sample curve degenerates to the constant distance to that
sample. -/
theorem select_stars_shape_invariants (scolor smag icolor imag : List ℝ) (t : ℝ)
    (hlen : scolor.length = smag.length) (hcl : icolor.length = imag.length)
    (hm : icolor ≠ []) :
    ∃ mask dists, select_stars scolor smag icolor imag t "perpendicular" = .ok (mask, dists) ∧
      mask.length = scolor.length ∧ dists.length = scolor.length ∧
      (∀ j, j < scolor.length → ∃ d, dists.getD j none = some d ∧ 0 ≤ d) ∧
      (scolor = [] → mask = [] ∧ dists = []) ∧
      ∀ c0 m0, icolor = [c0] → imag = [m0] → ∀ j, j < scolor.length →
        dists.getD j none = some (eDist (scolor.getD j 0, smag.getD j 0) (c0, m0)) := by
  refine ⟨(perpendicular_distance (scolor.zip smag) icolor imag).map (distLE t),
    perpendicular_distance (scolor.zip smag) icolor imag, ?_, ?_, ?_, ?_, ?_, ?_⟩
  · unfold select_stars
    rw [if_neg (fun h => h hlen), if_pos rfl]
  · simp [perpendicular_distance, ← hlen]
  · simp [perpendicular_distance, ← hlen]
  · intro j hj
    have hjz : j < (scolor.zip smag).length := by simp [← hlen]; exact hj
    obtain ⟨d, hd, _, q, _, he⟩ := perpendicular_distance_min_over_samples (scolor.zip smag)
      icolor imag hcl hm j hjz
    exact ⟨d, hd, he ▸ Real.sqrt_nonneg _⟩
  · intro h
    subst h
    simp [perpendicular_distance]
  · intro c0 m0 hc0 hm0 j hj
    subst hc0; subst hm0
    have hjz : j < (scolor.zip smag).length := by simp [← hlen]; exact hj
    unfold perpendicular_distance
    rw [getD_map_of_lt _ hjz (0, 0) none, getD_zip_of_lt hj (hlen ▸ hj) 0 0]
    have hsort : sortCurve [c0] [m0] = [(c0, m0)] := by
      simp [sortCurve]
    rw [hsort]
    rfl

theorem select_stars_shape_invariants_witness :
    ∃ mask dists, select_stars [0] [0] [1] [2] 1 "perpendicular" = .ok (mask, dists) ∧
      mask.length = List.length [(0 : ℝ)] ∧ dists.length = List.length [(0 : ℝ)] ∧
      (∀ j, j < List.length [(0 : ℝ)] → ∃ d, dists.getD j none = some d ∧ 0 ≤ d) ∧
      (([0] : List ℝ) = [] → mask = [] ∧ dists = []) ∧
      ∀ c0 m0, ([1] : List ℝ) = [c0] → ([2] : List ℝ) = [m0] →
        ∀ j, j < List.length [(0 : ℝ)] →
          dists.getD j none
            = some (eDist (([0] : List ℝ).getD j 0, ([0] : List ℝ).getD j 0) (c0, m0)) :=
  select_stars_shape_invariants [0] [0] [1] [2] 1 (by simp) (by simp) (by simp)

/-- C3: the mask returned by `select_stars` is consistent with its own
returned distances: `mask[j] = true` exactly when `distances[j] ≤ threshold`,
the boundary being inclusive. -/
theorem select_stars_mask_matches_distances (scolor smag icolor imag : List ℝ) (t : ℝ)
    (hlen : scolor.length = smag.length) (hcl : icolor.length = imag.length)
    (hm : icolor ≠ []) (_ht : 0 ≤ t) (j : ℕ) (hj : j < scolor.length) :
    ∃ mask dists d, select_stars scolor smag icolor imag t "perpendicular" = .ok (mask, dists) ∧
      dists.getD j none = some d ∧ (mask.getD j false = true ↔ d ≤ t) := by
  have hjz : j < (scolor.zip smag).length := by simp [← hlen]; exact hj
  obtain ⟨d, hd, _, _⟩ := perpendicular_distance_min_over_samples (scolor.zip smag)
    icolor imag hcl hm j hjz
  refine ⟨(perpendicular_distance (scolor.zip smag) icolor imag).map (distLE t),
    perpendicular_distance (scolor.zip smag) icolor imag, d, ?_, hd, ?_⟩
  · unfold select_stars
    rw [if_neg (fun h => h hlen), if_pos rfl]
  · have hjp : j < (perpendicular_distance (scolor.zip smag) icolor imag).length := by
      simpa [perpendicular_distance] using hjz
    rw [getD_map_of_lt _ hjp none false, hd]
    simp [distLE]

theorem select_stars_mask_matches_distances_witness :
    ∃ mask dists d, select_stars [0] [0] [1] [2] 1 "perpendicular" = .ok (mask, dists) ∧
      dists.getD 0 none = some d ∧ (mask.getD 0 false = true ↔ d ≤ 1) :=
  select_stars_mask_matches_distances [0] [0] [1] [2] 1 (by simp) (by simp) (by simp)
    (by simp) 0 (by simp)

/-- C4 counterexample: the claim that an empty curve must fail with an
InvalidInput error is false — scipy's k-d tree accepts an empty point set
and reports an infinite distance, so `select_stars` succeeds, selecting
nothing. -/
theorem select_stars_empty_curve_counterexample :
    select_stars [0] [0] [] [] 1 "perpendicular" = .ok ([false], [none]) := by
  unfold select_stars
  rw [if_neg (fun h => h rfl), if_pos rfl]
  simp [perpendicular_distance, sortCurve, nearestDist?, distLE]

/-- C4 amended: calling the distance operation through `select_stars` with an
empty curve (`m = 0`) does not fail: the k-d tree is built over zero points,
every query distance is infinite, and the call returns an all-`False` mask
with infinite distances. -/
theorem select_stars_empty_curve_no_error (scolor smag : List ℝ) (t : ℝ)
    (hlen : scolor.length = smag.length) :
    select_stars scolor smag [] [] t "perpendicular"
      = .ok ((scolor.zip smag).map fun _ => false, (scolor.zip smag).map fun _ => none) := by
  unfold select_stars
  rw [if_neg (fun h => h hlen), if_pos rfl]
  simp [perpendicular_distance, sortCurve, nearestDist?, distLE]

theorem select_stars_empty_curve_no_error_witness :
    select_stars [1] [2] [] [] 3 "perpendicular"
      = .ok ((List.zip ([1] : List ℝ) ([2] : List ℝ)).map fun _ => false,
          (List.zip ([1] : List ℝ) ([2] : List ℝ)).map fun _ => none) :=
  select_stars_empty_curve_no_error [1] [2] 3 (by simp)

/-! ### Claims about the band selection -/

/-- C2: for a well-formed curve, a catalog point is selected by
`select_stars_color_range` exactly when its color lies in the widened
interval `[min − color_tol, max + color_tol]`, its color lies in the strict
interpolation domain `[min, max]` (where the expected magnitude is defined),
and its magnitude is within `mag_tol` of the interpolated expected
magnitude.  In particular a point outside the widened interval, or inside it
but outside the strict domain, is never selected. -/
theorem select_stars_color_range_band_iff (scolor smag icolor imag : List ℝ) (ct mt : ℝ)
    (hlen : scolor.length = smag.length) (hcl : icolor.length = imag.length)
    (h2 : 2 ≤ icolor.length) (j : ℕ) (hj : j < scolor.length) :
    ∃ mask, select_stars_color_range scolor smag icolor imag ct mt = .ok mask ∧
      (mask.getD j false = true ↔
        (npMin ((sortCurve icolor imag).map Prod.fst) - ct ≤ scolor.getD j 0 ∧
          scolor.getD j 0 ≤ npMax ((sortCurve icolor imag).map Prod.fst) + ct) ∧
        (npMin ((sortCurve icolor imag).map Prod.fst) ≤ scolor.getD j 0 ∧
          scolor.getD j 0 ≤ npMax ((sortCurve icolor imag).map Prod.fst)) ∧
        ∃ e, npInterp (sortCurve icolor imag) (scolor.getD j 0) = some e ∧
          |smag.getD j 0 - e| ≤ mt) := by
  have h2z : 2 ≤ (icolor.zip imag).length := by
    rw [List.length_zip, ← hcl, min_self]
    exact h2
  obtain ⟨mask, hok, _, hpt⟩ := band_ok scolor smag icolor imag ct mt hlen h2z
  refine ⟨mask, hok, ?_⟩
  rw [hpt j hj]
  cases hE : npInterp (sortCurve icolor imag) (scolor.getD j 0) with
  | none =>
    simp only [magMaskEntry, Bool.and_false, Option.isNone_none, Bool.not_true,
      Bool.false_and, Bool.and_eq_true, Bool.false_eq_true, false_iff]
    rintro ⟨_, _, e, he, _⟩
    exact Option.noConfusion he
  | some e =>
    have hdom : npMin ((sortCurve icolor imag).map Prod.fst) ≤ scolor.getD j 0 ∧
        scolor.getD j 0 ≤ npMax ((sortCurve icolor imag).map Prod.fst) := by
      have hs := sortCurve_sorted icolor imag
      have hb := (npInterp_isSome_iff (sortCurve icolor imag) (scolor.getD j 0)).mp
        (by rw [hE]; rfl)
      rw [npMin_of_sorted hs, npMax_of_sorted hs]
      simpa using hb
    simp only [colorMaskEntry, magMaskEntry, Option.isNone_some, Bool.not_false, Bool.and_true,
      Bool.and_eq_true, decide_eq_true_eq]
    constructor
    · rintro ⟨hw, hmag⟩
      exact ⟨hw, hdom, e, rfl, hmag⟩
    · rintro ⟨hw, _, e2, he2, hmag⟩
      have : e = e2 := Option.some.inj he2
      exact ⟨hw, this ▸ hmag⟩

theorem select_stars_color_range_band_iff_witness :
    ∃ mask, select_stars_color_range [0] [10] [0, 1] [10, 11] 1 1 = .ok mask ∧
      (mask.getD 0 false = true ↔
        (npMin ((sortCurve [0, 1] [10, 11]).map Prod.fst) - 1 ≤ ([(0 : ℝ)]).getD 0 0 ∧
          ([(0 : ℝ)]).getD 0 0 ≤ npMax ((sortCurve [0, 1] [10, 11]).map Prod.fst) + 1) ∧
        (npMin ((sortCurve [0, 1] [10, 11]).map Prod.fst) ≤ ([(0 : ℝ)]).getD 0 0 ∧
          ([(0 : ℝ)]).getD 0 0 ≤ npMax ((sortCurve [0, 1] [10, 11]).map Prod.fst)) ∧
        ∃ e, npInterp (sortCurve [0, 1] [10, 11]) (([(0 : ℝ)]).getD 0 0) = some e ∧
          |([(10 : ℝ)]).getD 0 0 - e| ≤ 1) :=
  select_stars_color_range_band_iff [0] [10] [0, 1] [10, 11] 1 1 (by simp) (by simp)
    (by simp) 0 (by simp)

/-- C10: for a well-formed catalog, the band selection's output does not
depend on the value of the color tolerance, as long as it is non-negative:
any point admitted by the widened color interval beyond the strict domain is
rejected by the undefined-interpolant check anyway. -/
theorem select_stars_color_range_colorTol_independent (scolor smag icolor imag : List ℝ)
    (mt t1 t2 : ℝ) (hlen : scolor.length = smag.length) (ht1 : 0 ≤ t1) (ht2 : 0 ≤ t2) :
    select_stars_color_range scolor smag icolor imag t1 mt
      = select_stars_color_range scolor smag icolor imag t2 mt := by
  by_cases h2 : 2 ≤ (icolor.zip imag).length
  · obtain ⟨m1, ho1, hl1, hp1⟩ := band_ok scolor smag icolor imag t1 mt hlen h2
    obtain ⟨m2, ho2, hl2, hp2⟩ := band_ok scolor smag icolor imag t2 mt hlen h2
    rw [ho1, ho2]
    congr 1
    apply list_ext_getD false _ _ (hl1.trans hl2.symm)
    intro i hi
    have hi2 : i < scolor.length := hl1 ▸ hi
    rw [hp1 i hi2, hp2 i hi2]
    cases hE : npInterp (sortCurve icolor imag) (scolor.getD i 0) with
    | none => simp [magMaskEntry]
    | some e =>
      have hs := sortCurve_sorted icolor imag
      have hdom : npMin ((sortCurve icolor imag).map Prod.fst) ≤ scolor.getD i 0 ∧
          scolor.getD i 0 ≤ npMax ((sortCurve icolor imag).map Prod.fst) := by
        have hb := (npInterp_isSome_iff (sortCurve icolor imag) (scolor.getD i 0)).mp
          (by rw [hE]; rfl)
        rw [npMin_of_sorted hs, npMax_of_sorted hs]
        simpa using hb
      have hce : ∀ t : ℝ, 0 ≤ t →
          colorMaskEntry (npMin ((sortCurve icolor imag).map Prod.fst))
            (npMax ((sortCurve icolor imag).map Prod.fst)) t (scolor.getD i 0) = true := by
        intro t ht
        unfold colorMaskEntry
        rw [Bool.and_eq_true, decide_eq_true_eq, decide_eq_true_eq]
        constructor
        · exact le_trans (sub_le_self _ ht) hdom.1
        · exact le_trans hdom.2 (le_add_of_nonneg_right ht)
      rw [hce t1 ht1, hce t2 ht2]
  · have hlt : (icolor.zip imag).length < 2 := Nat.not_le.mp h2
    unfold select_stars_color_range
    rw [if_pos hlt, if_pos hlt]

theorem select_stars_color_range_colorTol_independent_witness :
    select_stars_color_range [0] [10] [0, 1] [10, 11] 1 1
      = select_stars_color_range [0] [10] [0, 1] [10, 11] 2 1 :=
  select_stars_color_range_colorTol_independent [0] [10] [0, 1] [10, 11] 1 1 2 (by simp)
    (by simp) (by simp)

/-! ### Error behavior of the band selection (curve size, catalog lengths) -/

/-- C5 counterexample: a curve of two samples sharing one color value is
*accepted* by `select_stars_color_range` (scipy's `interp1d` only counts
entries, not distinct colors), refuting the claim that fewer than 2 distinct
colors must fail. -/
theorem band_duplicate_colors_counterexample :
    select_stars_color_range [0] [0] [1, 1] [10, 20] 1 1 = .ok [false] := by
  norm_num [select_stars_color_range, sortCurve, colorLE, npInterp, npMin, npMax,
    magMaskEntry, colorMaskEntry, zipBcast]

/-- C5 amended: the band selection fails (with `interp1d`'s ValueError)
exactly when the curve has fewer than 2 *samples*; any curve of at least
2 samples — even with all colors equal — is accepted and yields a
catalog-sized mask. -/
theorem band_curve_size_errors (sc sm ic im : List ℝ) (ct mt : ℝ) :
    ((ic.zip im).length < 2 →
      select_stars_color_range sc sm ic im ct mt
        = .error "ValueError: x and y arrays must have at least 2 entries") ∧
    (2 ≤ (ic.zip im).length → sc.length = sm.length →
      ∃ mask, select_stars_color_range sc sm ic im ct mt = .ok mask ∧
        mask.length = sc.length) := by
  constructor
  · intro h
    unfold select_stars_color_range
    rw [if_pos h]
  · intro h2 hlen
    obtain ⟨mask, hok, hl, _⟩ := band_ok sc sm ic im ct mt hlen h2
    exact ⟨mask, hok, hl⟩

theorem band_curve_size_errors_witness :
    select_stars_color_range [0] [0] [1] [10] 1 1
      = .error "ValueError: x and y arrays must have at least 2 entries" ∧
    ∃ mask, select_stars_color_range [0] [0] [2, 2] [10, 20] 1 1 = .ok mask ∧
      mask.length = List.length [(0 : ℝ)] :=
  ⟨(band_curve_size_errors [0] [0] [1] [10] 1 1).1 (by simp),
   (band_curve_size_errors [0] [0] [2, 2] [10, 20] 1 1).2 (by simp) (by simp)⟩

/-- C6 counterexample: `select_stars_color_range` with a 2-point color array
and a 1-point magnitude array does not fail — numpy broadcasting stretches
the single magnitude across the catalog and a mask is returned. -/
theorem band_mismatched_catalog_counterexample :
    select_stars_color_range [0, 1] [10] [0, 1] [10, 11] 1 1 = .ok [true, true] := by
  norm_num [select_stars_color_range, sortCurve, colorLE, npInterp, npMin, npMax,
    magMaskEntry, colorMaskEntry, zipBcast]

/-- C6 amended: `select_stars` rejects any catalog length mismatch up front
(`np.column_stack` raises before distances are computed), but
`select_stars_color_range` only fails on a mismatch when *neither* catalog
array has length 1 (numpy broadcasting), and only at the magnitude
subtraction — after the interpolation has already run. -/
theorem mismatched_catalog_length_errors :
    (∀ sc sm ic im : List ℝ, ∀ t : ℝ, ∀ metric : String, sc.length ≠ sm.length →
      select_stars sc sm ic im t metric
        = .error "ValueError: all the input array dimensions must match exactly") ∧
    (∀ sc sm ic im : List ℝ, ∀ ct mt : ℝ, 2 ≤ (ic.zip im).length →
      sc.length ≠ sm.length → sc.length ≠ 1 → sm.length ≠ 1 →
      select_stars_color_range sc sm ic im ct mt
        = .error "ValueError: operands could not be broadcast together (mag)") := by
  constructor
  · intro sc sm ic im t metric h
    unfold select_stars
    rw [if_pos h]
  · intro sc sm ic im ct mt h2 hne h1 hm1
    unfold select_stars_color_range
    rw [if_neg (Nat.not_lt.mpr h2)]
    have hz : zipBcast (magMaskEntry mt) sm (sc.map (npInterp (sortCurve ic im))) = none :=
      zipBcast_none _ (by simpa using hne.symm) hm1 (by simpa using h1)
    rw [hz]

theorem mismatched_catalog_length_errors_witness :
    select_stars [0, 1] [10, 20, 30] [0, 1] [10, 11] 1 "perpendicular"
      = .error "ValueError: all the input array dimensions must match exactly" ∧
    select_stars_color_range [0, 1] [10, 20, 30] [0, 1] [10, 11] 1 1
      = .error "ValueError: operands could not be broadcast together (mag)" :=
  ⟨mismatched_catalog_length_errors.1 [0, 1] [10, 20, 30] [0, 1] [10, 11] 1 "perpendicular"
      (by simp),
   mismatched_catalog_length_errors.2 [0, 1] [10, 20, 30] [0, 1] [10, 11] 1 1 (by simp)
      (by simp) (by simp) (by simp)⟩

/-! ### Order (in)dependence in the curve samples -/

/-- Strict ordering of curve samples by color. -/
def colorLT (a b : Pt) : Prop := a.1 < b.1

instance : IsAntisymm Pt colorLT := ⟨fun _ _ h1 h2 => (lt_asymm h1 h2).elim⟩

/-- C7 counterexample: with duplicate curve colors carrying different
magnitudes, swapping the two equal-color samples changes the interpolant and
hence the band-selection mask — the result is not invariant under every
permutation of the curve samples. -/
theorem band_curve_order_counterexample :
    select_stars_color_range [1 / 2] [5] [0, 1, 1] [0, 10, 20] 1 1 = .ok [true] ∧
    select_stars_color_range [1 / 2] [5] [0, 1, 1] [0, 20, 10] 1 1 = .ok [false] := by
  constructor
  · norm_num [select_stars_color_range, sortCurve, colorLE, npInterp, npMin, npMax,
      magMaskEntry, colorMaskEntry, zipBcast]
  · norm_num [select_stars_color_range, sortCurve, colorLE, npInterp, npMin, npMax,
      magMaskEntry, colorMaskEntry, zipBcast]

/-- C7 amended: permuting the curve samples (pairs kept intact) never changes
the distance operation or `select_stars`; it leaves `select_stars_color_range`
unchanged as well whenever the curve's colors are pairwise distinct (with
duplicate colors of different magnitudes the tie order reaches the
interpolant, see the counterexample).  The embedding is pure, so the caller's
arrays are never mutated. -/
theorem curve_sample_order_invariance (ic1 im1 ic2 im2 : List ℝ)
    (hperm : (ic1.zip im1).Perm (ic2.zip im2)) :
    (∀ points : List Pt,
      perpendicular_distance points ic1 im1 = perpendicular_distance points ic2 im2) ∧
    (∀ sc sm : List ℝ, ∀ t : ℝ, ∀ metric : String,
      select_stars sc sm ic1 im1 t metric = select_stars sc sm ic2 im2 t metric) ∧
    (((ic1.zip im1).map Prod.fst).Nodup →
      ∀ sc sm : List ℝ, ∀ ct mt : ℝ,
        select_stars_color_range sc sm ic1 im1 ct mt
          = select_stars_color_range sc sm ic2 im2 ct mt) := by
  have hsp : (sortCurve ic1 im1).Perm (sortCurve ic2 im2) :=
    ((sortCurve_perm ic1 im1).trans hperm).trans (sortCurve_perm ic2 im2).symm
  have hpd : ∀ points : List Pt,
      perpendicular_distance points ic1 im1 = perpendicular_distance points ic2 im2 := by
    intro points
    unfold perpendicular_distance
    exact List.map_congr_left fun p _ => nearestDist?_perm p hsp
  refine ⟨hpd, ?_, ?_⟩
  · intro sc sm t metric
    unfold select_stars euclidean_distance
    rw [hpd (sc.zip sm)]
  · intro hnd sc sm ct mt
    have hnd1 : ((sortCurve ic1 im1).map Prod.fst).Nodup := by
      refine (List.Perm.nodup_iff ?_).mpr hnd
      exact (sortCurve_perm ic1 im1).map Prod.fst
    have hnd2 : ((sortCurve ic2 im2).map Prod.fst).Nodup := by
      refine (List.Perm.nodup_iff ?_).mpr hnd
      exact (hsp.symm.trans (sortCurve_perm ic1 im1)).map Prod.fst
    have hlt1 : (sortCurve ic1 im1).Sorted colorLT := by
      have hle := List.sorted_insertionSort colorLE (ic1.zip im1)
      have hne := (List.pairwise_map).mp hnd1
      exact (hle.and hne).imp fun h => lt_of_le_of_ne h.1 h.2
    have hlt2 : (sortCurve ic2 im2).Sorted colorLT := by
      have hle := List.sorted_insertionSort colorLE (ic2.zip im2)
      have hne := (List.pairwise_map).mp hnd2
      exact (hle.and hne).imp fun h => lt_of_le_of_ne h.1 h.2
    have hsort : sortCurve ic1 im1 = sortCurve ic2 im2 :=
      List.eq_of_perm_of_sorted hsp hlt1 hlt2
    have hlen2 : (ic1.zip im1).length = (ic2.zip im2).length := hperm.length_eq
    unfold select_stars_color_range
    rw [hsort, hlen2]

theorem curve_sample_order_invariance_witness :
    perpendicular_distance [((0 : ℝ), (0 : ℝ))] [1, 0] [10, 11]
        = perpendicular_distance [((0 : ℝ), (0 : ℝ))] [0, 1] [11, 10] ∧
      select_stars [0] [0] [1, 0] [10, 11] 1 "perpendicular"
        = select_stars [0] [0] [0, 1] [11, 10] 1 "perpendicular" ∧
      select_stars_color_range [0] [0] [1, 0] [10, 11] 1 1
        = select_stars_color_range [0] [0] [0, 1] [11, 10] 1 1 :=
  ⟨(curve_sample_order_invariance [1, 0] [10, 11] [0, 1] [11, 10]
      (List.Perm.swap ((0 : ℝ), (11 : ℝ)) ((1 : ℝ), (10 : ℝ)) [])).1 [((0 : ℝ), (0 : ℝ))],
   (curve_sample_order_invariance [1, 0] [10, 11] [0, 1] [11, 10]
      (List.Perm.swap ((0 : ℝ), (11 : ℝ)) ((1 : ℝ), (10 : ℝ)) [])).2.1 [0] [0] 1 "perpendicular",
   (curve_sample_order_invariance [1, 0] [10, 11] [0, 1] [11, 10]
      (List.Perm.swap ((0 : ℝ), (11 : ℝ)) ((1 : ℝ), (10 : ℝ)) [])).2.2 (by simp) [0] [0] 1 1⟩

end IsochroneSelection
